import Mathlib
set_option maxHeartbeats 1000000
set_option maxRecDepth 40000
/-
Verification development for the darkmahou anime torrent provider
(src/darkmahou/darkmahou-provider.ts).

Strings are modelled as List Char.  JavaScript numbers that carry scores,
weights and similarities are modelled as rationals; counters and indices as
naturals.  Every definition is executable, so concrete runs of the embedded
code can be settled with decide.
-/
/- Conversion from Lean string literals to the List Char model. -/

def s2l (s : String) : List Char := s.data

/-! # LevenshteinCalculator

The source computes the classic unit-cost edit distance with a dynamic
programming matrix: cell (i, j) holds the distance between the first i
characters of b and the first j characters of a, with
m[i][j] = m[i-1][j-1] when the characters agree and
1 + min of (m[i-1][j-1], m[i][j-1], m[i-1][j]) otherwise; borders are i and
j.  The recursive functions below compute exactly that three-way-minimum
recurrence (the matrix is its memoisation); levCons turns the distance
function of the tail into the distance function of the extended string.
-/
def levCons (x : Char) (f : List Char → Nat) : List Char → Nat
  | [] => f [] + 1
  | y :: ys =>
      if x = y then f ys
      else 1 + min (f ys) (min (levCons x f ys) (f (y :: ys)))

def lev : List Char → List Char → Nat
  | [], b => b.length
  | x :: xs, b => levCons x (lev xs) b

/- The dynamic-programming matrix of the source, built row by row over b.
rowGo fills one row: diag, up and cur are the matrix neighbours
m[i-1][j-1], m[i-1][j] and m[i][j-1], and the cell compares the row
character y = b[i-1] with the column character x = a[j-1]. -/
def rowGo (y : Char) : List Char → List Nat → Nat → List Nat
  | [], _, _ => []
  | _ :: _, [], _ => []
  | x :: xs, diag :: prest, cur =>
      let up := match prest with
        | u :: _ => u
        | [] => 0
      let v := if y = x then diag else 1 + min diag (min cur up)
      v :: rowGo y xs prest v

/- The next row: its border cell is the previous border plus one. -/
def newRow (y : Char) (a : List Char) (prev : List Nat) : List Nat :=
  let first := prev.headD 0 + 1
  first :: rowGo y a prev first

/- The final matrix row, starting from the border row 0, 1, ..., aLen. -/
def calcMatrix (a b : List Char) : List Nat :=
  b.foldl (fun row y => newRow y a row) (List.range (a.length + 1))

/- LevenshteinCalculator.calculate: the entry matrix[bLen][aLen] of the
dynamic-programming matrix; the final isValidStringDistance guard of the
source always passes on a natural number, so the entry itself is
returned.  The theorem calculate_eq_lev below identifies this tabulation
with the recursive distance lev. -/
def calculate (a b : List Char) : Nat :=
  (calcMatrix a b).getD a.length 0

/- The intended contents of a matrix row: the distances between every
prefix of a and the processed prefix p of b. -/
def rowFor (a p : List Char) : List Nat :=
  a.inits.map (fun t => lev t p)

/- LevenshteinCalculator.calculateSimilarity. -/
def calculateSimilarity (a b : List Char) (d : Nat) : ℚ :=
  let maxLen : ℚ := max a.length b.length
  if maxLen = 0 then 1 else max 0 ((maxLen - d) / maxLen)

/-! Single edit steps and edit chains: lev is exactly the minimal number of
single-character insertions, deletions and substitutions, which yields the
triangle inequality. -/
inductive EStep : List Char → List Char → Prop where
  | ins (u v : List Char) (x : Char) : EStep (u ++ v) (u ++ x :: v)
  | del (u v : List Char) (x : Char) : EStep (u ++ x :: v) (u ++ v)
  | sub (u v : List Char) (x y : Char) : EStep (u ++ x :: v) (u ++ y :: v)

inductive EChain : Nat → List Char → List Char → Prop where
  | refl (a : List Char) : EChain 0 a a
  | step {a a1 b : List Char} {n : Nat} :
      EStep a a1 → EChain n a1 b → EChain (n + 1) a b

/- String.prototype.toLowerCase on that repertoire. -/
def jsLower (c : Char) : Char :=
  if 'A' ≤ c ∧ c ≤ 'Z' then Char.ofNat (c.toNat + 32)
  else if 0xC0 ≤ c.toNat ∧ c.toNat ≤ 0xDE ∧ c.toNat ≠ 0xD7 then
    Char.ofNat (c.toNat + 32)
  else if c.toNat = 0x100 ∨ c.toNat = 0x112 ∨ c.toNat = 0x12A ∨
      c.toNat = 0x14C ∨ c.toNat = 0x16A then
    Char.ofNat (c.toNat + 1)
  else c

/- Whitespace recognised by trim and by the regex whitespace class (space,
tab, line feed, carriage return, vertical tab, form feed, no-break space and
the ideographic space). -/
def isJsSpace (c : Char) : Bool :=
  c = ' ' || c = Char.ofNat 9 || c = Char.ofNat 10 || c = Char.ofNat 13 ||
  c = Char.ofNat 11 || c = Char.ofNat 12 || c = Char.ofNat 160 ||
  c = Char.ofNat 12288

def isDigitC (c : Char) : Bool := '0' ≤ c && c ≤ '9'

/- The regex word class: letters, digits and underscore. -/
def isWordChar (c : Char) : Bool :=
  ('a' ≤ c && c ≤ 'z') || ('A' ≤ c && c ≤ 'Z') || isDigitC c || c = '_'

def isHexC (c : Char) : Bool :=
  isDigitC c || ('a' ≤ c && c ≤ 'f') || ('A' ≤ c && c ≤ 'F')

/- String.prototype.trim. -/
def jsTrim (s : List Char) : List Char :=
  ((s.dropWhile isJsSpace).reverse.dropWhile isJsSpace).reverse

/- Literal pattern at the head of the subject (case-sensitive). -/
def startsWithL : List Char → List Char → Bool
  | [], _ => true
  | _ :: _, [] => false
  | p :: ps, c :: cs => p = c && startsWithL ps cs

/- Literal pattern at the head of the subject under the regex i flag; the
pattern is given in lower case and the subject character is folded. -/
def startsWithCI : List Char → List Char → Bool
  | [], _ => true
  | _ :: _, [] => false
  | p :: ps, c :: cs => p = jsLower c && startsWithCI ps cs

/- String.prototype.includes. -/
def containsSub : List Char → List Char → Bool
  | [], pat => startsWithL pat []
  | c :: rest, pat => startsWithL pat (c :: rest) || containsSub rest pat

def countWhile (p : Char → Bool) (s : List Char) : Nat :=
  (s.takeWhile p).length

/-! Global regex replacement: the scanner tries a match attempt at every
position, emits the replacement and resumes after the matched span, exactly
like String.prototype.replace with the g flag.  An attempt returns the
replacement together with the number of matched characters beyond the
first; the fuel argument (initialised with the string length, an upper
bound on the number of scan steps) makes the recursion structural. -/
def scanReplF (att : List Char → Option (List Char × Nat)) :
    Nat → List Char → List Char
  | _, [] => []
  | 0, c :: rest => c :: rest
  | fuel + 1, c :: rest =>
      match att (c :: rest) with
      | some (rep, n) => rep ++ scanReplF att fuel (rest.drop n)
      | none => c :: scanReplF att fuel rest

def scanRepl (att : List Char → Option (List Char × Nat))
    (s : List Char) : List Char :=
  scanReplF att s.length s

/- Attempt for a literal pattern (the long-vowel collapses ou, uu, ei). -/
def attLit (pat rep : List Char) (s : List Char) : Option (List Char × Nat) :=
  if startsWithL pat s then some (rep, pat.length - 1) else none

/- Attempt for the compound-word patterns: first literal, one or more
whitespace characters, second literal, case-insensitively; the second
literal starts with a letter, so the greedy whitespace run is exact. -/
def attCompound (lit1 lit2 joined : List Char) (s : List Char) :
    Option (List Char × Nat) :=
  if startsWithCI lit1 s then
    let r1 := s.drop lit1.length
    let wsn := countWhile isJsSpace r1
    if wsn = 0 then none
    else if startsWithCI lit2 (r1.drop wsn) then
      some (joined, lit1.length + wsn + lit2.length - 1)
    else none
  else none

/- Attempt for season digits to S-digits: the replacement keeps the capture
and prepends an upper case S. -/
def attSeason (s : List Char) : Option (List Char × Nat) :=
  if startsWithCI (s2l "season") s then
    let r1 := s.drop 6
    let wsn := countWhile isJsSpace r1
    let r2 := r1.drop wsn
    let dn := countWhile isDigitC r2
    if dn = 0 then none
    else some ('S' :: r2.take dn, 6 + wsn + dn - 1)
  else none

/- Attempt for the episode marker (episod, then e or i, then an optional o,
then optional whitespace, then digits) to an upper case E plus the digits.
The optional o is taken greedily; declining it can never rescue a failed
match because the next pattern element only accepts whitespace or digits. -/
def attEpisode (s : List Char) : Option (List Char × Nat) :=
  if startsWithCI (s2l "episod") s then
    match s.drop 6 with
    | [] => none
    | c :: r1 =>
        if jsLower c = 'e' ∨ jsLower c = 'i' then
          let oCount := match r1 with
            | c2 :: _ => if jsLower c2 = 'o' then 1 else 0
            | [] => 0
          let r2 := r1.drop oCount
          let wsn := countWhile isJsSpace r2
          let r3 := r2.drop wsn
          let dn := countWhile isDigitC r3
          if dn = 0 then none
          else some ('E' :: r3.take dn, 6 + 1 + oCount + wsn + dn - 1)
        else none
  else none

/- Attempt collapsing a whitespace run to a single space. -/
def attWs (s : List Char) : Option (List Char × Nat) :=
  match s with
  | c :: rest =>
      if isJsSpace c then some ([' '], countWhile isJsSpace rest) else none
  | [] => none

def collapseWs (s : List Char) : List Char := scanRepl attWs s

/- CHARACTER_NORMALIZATIONS in source order. -/
def charNorms : List (Char × Char) :=
  [('á', 'a'), ('à', 'a'), ('â', 'a'), ('ã', 'a'), ('ä', 'a'),
   ('é', 'e'), ('è', 'e'), ('ê', 'e'), ('ë', 'e'),
   ('í', 'i'), ('ì', 'i'), ('î', 'i'), ('ï', 'i'),
   ('ó', 'o'), ('ò', 'o'), ('ô', 'o'), ('õ', 'o'), ('ö', 'o'),
   ('ú', 'u'), ('ù', 'u'), ('û', 'u'), ('ü', 'u'),
   ('ç', 'c'), ('ñ', 'n'),
   ('ō', 'o'), ('ū', 'u'), ('ā', 'a'), ('ē', 'e'), ('ī', 'i'),
   (Char.ofNat 12288, ' '), (Char.ofNat 9, ' '), (Char.ofNat 10, ' '),
   (Char.ofNat 13, ' ')]

def replaceChar (k v : Char) (s : List Char) : List Char :=
  s.map (fun c => if c = k then v else c)

def applyCharNorms (s : List Char) : List Char :=
  charNorms.foldl (fun acc p => replaceChar p.1 p.2 acc) s

/- ANIME_TITLE_VARIATIONS.patterns, applied in source order (innermost
application first). -/
def applyVariations (s : List Char) : List Char :=
  scanRepl attEpisode (scanRepl attSeason
    (scanRepl (attLit (s2l "ei") (s2l "e"))
      (scanRepl (attLit (s2l "uu") (s2l "u"))
        (scanRepl (attLit (s2l "ou") (s2l "o"))
          (scanRepl (attCompound (s2l "yuu") (s2l "sha") (s2l "yuusha"))
            (scanRepl (attCompound (s2l "ken") (s2l "shi") (s2l "kenshi"))
              (scanRepl (attCompound (s2l "seirei") (s2l "tsukai")
                  (s2l "seireitsukai"))
                (scanRepl (attCompound (s2l "maho") (s2l "tsukai")
                    (s2l "mahotsukai"))
                  (scanRepl (attCompound (s2l "mahou") (s2l "tsukai")
                      (s2l "mahoutsukai")) s)))))))))

/- StringNormalizer.normalize: lower-case and trim, character table,
anime-specific variations, whitespace collapse, trim.  (The source name
normalize is taken by the ambient library, hence the Str suffix.) -/
def normalizeStr (s : List Char) : List Char :=
  jsTrim (collapseWs (applyVariations (applyCharNorms (jsTrim
    (s.map jsLower)))))

/- StringNormalizer.clean: strip brackets, strip everything that is not a
word character, whitespace or hyphen, collapse whitespace, trim. -/
def clean (s : List Char) : List Char :=
  jsTrim (collapseWs ((s.filter (fun c =>
      !(c = '[' || c = ']' || c = '(' || c = ')' || c = '{' ||
        c = '}'))).filter (fun c =>
      isWordChar c || isJsSpace c || c = '-')))

/-! # Reduced normal forms: the normaliser phases as identities

A string is whitespace-canonical when its only whitespace characters are
single spaces with no two adjacent; on such strings the whitespace collapse
is the identity. -/
def wsCanon : List Char → Bool
  | [] => true
  | [c] => !isJsSpace c || c = ' '
  | c :: c2 :: rest =>
      (!isJsSpace c || c = ' ') && !(c = ' ' && c2 = ' ') &&
      wsCanon (c2 :: rest)

/- The leading literal of every rewrite pattern of the normaliser. -/
def triggers : List (List Char) :=
  [s2l "mahou", s2l "maho", s2l "seirei", s2l "ken", s2l "yuu",
   s2l "ou", s2l "uu", s2l "ei", s2l "season", s2l "episod"]

/- A string on which every phase of normalizeStr is the identity: already
lower case and trimmed, without characters of the normalisation table, with
canonical whitespace, and free of every rewrite trigger. -/
def fixedPred (t : List Char) : Bool :=
  (t.map jsLower == t) && (jsTrim t == t) &&
  charNorms.all (fun p => t.all (fun c => c != p.1)) &&
  wsCanon t &&
  triggers.all (fun pat => !containsSub t pat)

/-! # FuzzyStringMatcher -/
structure FuzzyMatchConfig where
  maxDistance : ℚ
  minSimilarity : ℚ
  wExact : ℚ
  wFuzzy : ℚ
  wNormalized : ℚ
  wPhonetic : ℚ

/- FUZZY_MATCH_CONFIG: maxDistance 5, minSimilarity 0.6, weights
exact 100, fuzzy 80, normalized 70, phonetic 60. -/
def FUZZY_MATCH_CONFIG : FuzzyMatchConfig :=
  ⟨5, 3 / 5, 100, 80, 70, 60⟩

/- Math.round: round half toward positive infinity. -/
def jsRound (x : ℚ) : ℚ := ((⌊x + 1 / 2⌋ : ℤ) : ℚ)

def exactMatch (query target : List Char) (weight : ℚ) : ℚ :=
  let queryNorm := jsTrim (query.map jsLower)
  let targetNorm := jsTrim (target.map jsLower)
  if queryNorm = targetNorm then weight
  else if containsSub targetNorm queryNorm then weight * (8 / 10)
  else if containsSub queryNorm targetNorm then weight * (7 / 10)
  else 0

def fuzzyMatch (query target : List Char) (cfg : FuzzyMatchConfig) : ℚ :=
  let distance := calculate query target
  if (distance : ℚ) > cfg.maxDistance then 0
  else
    let similarity := calculateSimilarity query target distance
    if similarity < cfg.minSimilarity then 0
    else jsRound (similarity * cfg.wFuzzy)

def normalizedMatch (query target : List Char) (weight : ℚ) : ℚ :=
  let queryNorm := normalizeStr query
  let targetNorm := normalizeStr target
  if queryNorm = targetNorm then weight
  else if containsSub targetNorm queryNorm then weight * (8 / 10)
  else if containsSub queryNorm targetNorm then weight * (7 / 10)
  else
    let queryClean := clean queryNorm
    let targetClean := clean targetNorm
    if queryClean = targetClean then weight * (6 / 10)
    else if containsSub targetClean queryClean then weight * (5 / 10)
    else 0

/- FuzzyStringMatcher.toPhonetic: lower case, collapse the long vowels,
drop everything outside lower letters, digits and whitespace, remove all
whitespace, trim. -/
def toPhonetic (s : List Char) : List Char :=
  jsTrim (((scanRepl (attLit (s2l "ei") (s2l "e"))
    (scanRepl (attLit (s2l "uu") (s2l "u"))
      (scanRepl (attLit (s2l "ou") (s2l "o"))
        (s.map jsLower)))).filter (fun c =>
          ('a' ≤ c && c ≤ 'z') || isDigitC c || isJsSpace c)).filter
    (fun c => !isJsSpace c))

def phoneticMatch (query target : List Char) (weight : ℚ) : ℚ :=
  let queryPhonetic := toPhonetic query
  let targetPhonetic := toPhonetic target
  if queryPhonetic = targetPhonetic then weight
  else if containsSub targetPhonetic queryPhonetic then weight * (7 / 10)
  else 0

/- The strategy loop of FuzzyStringMatcher.match: keep the best score seen
and stop as soon as a strategy returns exactly 100. -/
def bestLoop : List ℚ → ℚ → ℚ
  | [], best => best
  | s :: rest, best =>
      let b2 := if s > best then s else best
      if s = 100 then b2 else bestLoop rest b2

/- The isFuzzyScore type guard of the source. -/
def isFuzzyScore (score : ℚ) : Bool := decide (0 ≤ score ∧ score ≤ 100)

def finalScore (best : ℚ) : ℚ := if isFuzzyScore best then best else 0

/- FuzzyStringMatcher.match (match is a reserved word in Lean, hence the
name matchScore): evaluate exact, fuzzy, normalized and phonetic in order
through the early-exit loop and guard the result with isFuzzyScore. -/
def matchScore (query target : List Char) (cfg : FuzzyMatchConfig) : ℚ :=
  finalScore (bestLoop
    [exactMatch query target cfg.wExact,
     fuzzyMatch query target cfg,
     normalizedMatch query target cfg.wNormalized,
     phoneticMatch query target cfg.wPhonetic] 0)

/- Type guard isValidMagnetLink: magnet prefix and more than 20 chars. -/
def isValidMagnetLink (link : List Char) : Bool :=
  startsWithL (s2l "magnet:?") link && decide (link.length > 20)

/- Decimal value of a capture consisting of digits (parseInt). -/
def parseIntDigits (ds : List Char) : Nat :=
  ds.foldl (fun acc c => 10 * acc + (c.toNat - 48)) 0

/- The INFO_HASH pattern btih followed by a colon and forty hex digits,
case-insensitively, at one position. -/
def btihAt (s : List Char) : Option (List Char) :=
  if startsWithCI (s2l "btih:") s then
    let h := (s.drop 5).take 40
    if h.length = 40 && h.all isHexC then some h else none
  else none

def findBtih : List Char → Option (List Char)
  | [] => none
  | c :: rest =>
      match btihAt (c :: rest) with
      | some h => some h
      | none => findBtih rest

/- TorrentParser.extractInfoHash: magnet guard, info-hash pattern, hash
guard (forty hex characters); the hash is returned as captured. -/
def extractInfoHash (magnetLink : List Char) : List Char :=
  if isValidMagnetLink magnetLink then
    match findBtih magnetLink with
    | some hash => if hash.length = 40 && hash.all isHexC then hash else []
    | none => []
  else []

/- The RESOLUTION pattern: word boundary, three or four digits (greedy),
letter p case-insensitively, word boundary. -/
def resTry (k : Nat) (s : List Char) : Option (List Char) :=
  let ds := s.take k
  if ds.length = k && ds.all isDigitC then
    match s.drop k with
    | c :: rest =>
        if (c = 'p' || c = 'P') &&
            (match rest with
             | [] => true
             | c2 :: _ => !isWordChar c2) then some (ds ++ [c])
        else none
    | [] => none
  else none

def resHere (s : List Char) : Option (List Char) :=
  match resTry 4 s with
  | some tok => some tok
  | none => resTry 3 s

def findResolution : Option Char → List Char → Option (List Char)
  | _, [] => none
  | prev, c :: rest =>
      let bOK : Bool := match prev with
        | none => true
        | some pc => !isWordChar pc
      match (if bOK then resHere (c :: rest) else none) with
      | some tok => some tok
      | none => findResolution (some c) rest

def validResolutions : List (List Char) :=
  [s2l "480p", s2l "720p", s2l "1080p", s2l "1440p", s2l "4K"]

/- TorrentParser.parseResolution. -/
def parseResolution (name : List Char) : List Char :=
  match findResolution none name with
  | some resolution =>
      if validResolutions.contains resolution then resolution else []
  | none => []

/- The EPISODE_RANGE pattern: word boundary, two or three digits, optional
whitespace, dash or tilde, optional whitespace, two or three digits, word
boundary. -/
def rangeSnd (k : Nat) (r : List Char) : Option Nat :=
  let es := r.take k
  if es.length = k && es.all isDigitC &&
      (match r.drop k with
       | [] => true
       | c2 :: _ => !isWordChar c2) then some (parseIntDigits es)
  else none

def rangeTry (k : Nat) (s : List Char) : Option (Nat × Nat) :=
  let ds := s.take k
  if ds.length = k && ds.all isDigitC then
    let r1 := s.drop k
    let wsn := countWhile isJsSpace r1
    match r1.drop wsn with
    | c :: r2 =>
        if c = '-' || c = '~' then
          let r3 := r2.drop (countWhile isJsSpace r2)
          match rangeSnd 3 r3 with
          | some e => some (parseIntDigits ds, e)
          | none =>
              match rangeSnd 2 r3 with
              | some e => some (parseIntDigits ds, e)
              | none => none
        else none
    | [] => none
  else none

def findRange : Option Char → List Char → Option (Nat × Nat)
  | _, [] => none
  | prev, c :: rest =>
      let bOK : Bool := match prev with
        | none => true
        | some pc => !isWordChar pc
      match (if bOK then
          (match rangeTry 3 (c :: rest) with
           | some r => some r
           | none => rangeTry 2 (c :: rest))
        else none) with
      | some r => some r
      | none => findRange (some c) rest

/- Bare season marker: word boundary, s, digits, word boundary (applied to
the lower-cased name). -/
def findBareSeason : Option Char → List Char → Bool
  | _, [] => false
  | prev, c :: rest =>
      let bOK : Bool := match prev with
        | none => true
        | some pc => !isWordChar pc
      if bOK && c = 's' &&
          (let dn := countWhile isDigitC rest
           decide (0 < dn) &&
           (match rest.drop dn with
            | [] => true
            | c2 :: _ => !isWordChar c2)) then true
      else findBareSeason (some c) rest

/- Season and episode marker: word boundary, s, digits, e, digits, word
boundary (applied to the lower-cased name). -/
def findSeasonEp : Option Char → List Char → Bool
  | _, [] => false
  | prev, c :: rest =>
      let bOK : Bool := match prev with
        | none => true
        | some pc => !isWordChar pc
      if bOK && c = 's' &&
          (let dn := countWhile isDigitC rest
           decide (0 < dn) &&
           (match rest.drop dn with
            | c2 :: r2 =>
                c2 = 'e' &&
                (let dn2 := countWhile isDigitC r2
                 decide (0 < dn2) &&
                 (match r2.drop dn2 with
                  | [] => true
                  | c3 :: _ => !isWordChar c3))
            | [] => false)) then true
      else findSeasonEp (some c) rest

/- Isolated single-episode marker: whitespace, dash, whitespace, one to
three digits, then whitespace or end. -/
def indivAfter (k : Nat) (r : List Char) : Bool :=
  let ds := r.take k
  ds.length = k && ds.all isDigitC &&
    (match r.drop k with
     | [] => true
     | c2 :: _ => isJsSpace c2)

def indivAt (s : List Char) : Bool :=
  match s with
  | w1 :: c :: w2 :: r3 =>
      isJsSpace w1 && c = '-' && isJsSpace w2 &&
      (indivAfter 3 r3 || indivAfter 2 r3 || indivAfter 1 r3)
  | _ => false

def findIndiv : List Char → Bool
  | [] => false
  | c :: rest => indivAt (c :: rest) || findIndiv rest

/- TorrentParser.isBatchTorrent. -/
def isBatchTorrent (name episodeTitle : List Char) : Bool :=
  let lowerName := name.map jsLower
  let lowerTitle := episodeTitle.map jsLower
  if containsSub lowerName (s2l "batch") ||
      containsSub lowerName (s2l "complete") ||
      containsSub lowerTitle (s2l "~") then true
  else if (match findRange none name with
      | some r => decide (r.1 < r.2) && decide (1 ≤ r.1) && decide (r.2 ≤ 999)
      | none => false) then true
  else if findBareSeason none lowerName && !findSeasonEp none lowerName then
    true
  else if findIndiv name then false
  else false

/- The variant of isBatchTorrent with the final single-episode rule
removed, whose branch and the fall-through default both return false. -/
def isBatchTorrentNoSingleRule (name episodeTitle : List Char) : Bool :=
  let lowerName := name.map jsLower
  let lowerTitle := episodeTitle.map jsLower
  if containsSub lowerName (s2l "batch") ||
      containsSub lowerName (s2l "complete") ||
      containsSub lowerTitle (s2l "~") then true
  else if (match findRange none name with
      | some r => decide (r.1 < r.2) && decide (1 ≤ r.1) && decide (r.2 ≤ 999)
      | none => false) then true
  else if findBareSeason none lowerName && !findSeasonEp none lowerName then
    true
  else false

/- The Portuguese episode pattern on the episode title. -/
def portAt (s : List Char) : Option Nat :=
  if startsWithCI (s2l "episódio") s then
    let r1 := s.drop 8
    let wsn := countWhile isJsSpace r1
    if wsn = 0 then none
    else
      let r2 := r1.drop wsn
      let dn := countWhile isDigitC r2
      if dn = 0 then none else some (parseIntDigits (r2.take dn))
  else none

def findPort : List Char → Option Nat
  | [] => none
  | c :: rest =>
      match portAt (c :: rest) with
      | some n => some n
      | none => findPort rest

/- The EPISODE_DASH pattern: whitespace, dash, whitespace, one to four
digits (greedy), whitespace. -/
def dashNum (k : Nat) (r : List Char) : Option Nat :=
  let ds := r.take k
  if ds.length = k && ds.all isDigitC &&
      (match r.drop k with
       | c2 :: _ => isJsSpace c2
       | [] => false) then some (parseIntDigits ds)
  else none

def dashAt (s : List Char) : Option Nat :=
  match s with
  | w1 :: c :: w2 :: r3 =>
      if isJsSpace w1 && c = '-' && isJsSpace w2 then
        match dashNum 4 r3 with
        | some n => some n
        | none =>
            match dashNum 3 r3 with
            | some n => some n
            | none =>
                match dashNum 2 r3 with
                | some n => some n
                | none => dashNum 1 r3
      else none
  | _ => none

def findDashNum : List Char → Option Nat
  | [] => none
  | c :: rest =>
      match dashAt (c :: rest) with
      | some n => some n
      | none => findDashNum rest

/- The SEASON_EPISODE pattern: s, digits, e, digits, case-insensitively;
the episode component is captured. -/
def findSE : List Char → Option Nat
  | [] => none
  | c :: rest =>
      if jsLower c = 's' then
        let dn := countWhile isDigitC rest
        if 0 < dn then
          match rest.drop dn with
          | c2 :: r2 =>
              if jsLower c2 = 'e' then
                let dn2 := countWhile isDigitC r2
                if 0 < dn2 then some (parseIntDigits (r2.take dn2))
                else findSE rest
              else findSE rest
          | [] => findSE rest
        else findSE rest
      else findSE rest

/- The English episode pattern: ep or episode, optional whitespace, digits,
case-insensitively; the alternation tries ep first and falls back to
episode, as the regex engine does. -/
def engTail (r1 : List Char) : Option Nat :=
  let r2 := r1.drop (countWhile isJsSpace r1)
  let dn := countWhile isDigitC r2
  if dn = 0 then none else some (parseIntDigits (r2.take dn))

def engAt (s : List Char) : Option Nat :=
  if startsWithCI (s2l "ep") s then
    match engTail (s.drop 2) with
    | some n => some n
    | none =>
        if startsWithCI (s2l "episode") s then engTail (s.drop 7) else none
  else none

def findEng : List Char → Option Nat
  | [] => none
  | c :: rest =>
      match engAt (c :: rest) with
      | some n => some n
      | none => findEng rest

/- All isolated one-to-four digit tokens (word boundaries on both sides),
left to right. -/
def collectTokens : Option Char → List Char → List Nat
  | _, [] => []
  | prev, c :: rest =>
      let bOK : Bool := match prev with
        | none => true
        | some pc => !isWordChar pc
      if bOK && isDigitC c then
        let dn := 1 + countWhile isDigitC rest
        if dn ≤ 4 &&
            (match (c :: rest).drop dn with
             | [] => true
             | c2 :: _ => !isWordChar c2) then
          parseIntDigits ((c :: rest).take dn) :: collectTokens (some c) rest
        else collectTokens (some c) rest
      else collectTokens (some c) rest

def isValidEpisodeNumber (n : Nat) : Bool := 1 ≤ n && n ≤ 9999

/- Validity filter of the isolated-numbers fallback: episode bounds, not a
common resolution (480, 720, 1080) and below the year guard 2000. -/
def isValidEpisodeForIsolation (n : Nat) : Bool :=
  isValidEpisodeNumber n && !([480, 720, 1080].contains n) &&
  decide (n < 2000)

def tryExtractFromIsolatedNumbers (name : List Char) : Option Nat :=
  (collectTokens none name).find? isValidEpisodeForIsolation

/- A pattern strategy returns null when its captured number fails the
episode bounds, letting the next strategy run. -/
def checkValid (o : Option Nat) : Option Nat :=
  match o with
  | some n => if isValidEpisodeNumber n then some n else none
  | none => none

/- TorrentParser.extractEpisodeNumber: batch short-circuit, then the five
strategies in priority order. -/
def extractEpisodeNumber (name episodeTitle : List Char) : ℤ :=
  if isBatchTorrent name episodeTitle then -1
  else
    match checkValid (findPort episodeTitle) with
    | some n => (n : ℤ)
    | none =>
        match checkValid (findDashNum name) with
        | some n => (n : ℤ)
        | none =>
            match checkValid (findSE name) with
            | some n => (n : ℤ)
            | none =>
                match checkValid (findEng name) with
                | some n => (n : ℤ)
                | none =>
                    match tryExtractFromIsolatedNumbers name with
                    | some n => (n : ℤ)
                    | none => -1

/-! # PerformanceCache -/
structure CacheEntry (V : Type) where
  data : V
  timestamp : Nat
  key : List Char

/- The insertion-ordered map underlying the JavaScript Map: set updates an
existing key in place and appends a new one; delete removes a key; the
first element is the oldest insertion. -/
def mapSet {V : Type} :
    List (List Char × CacheEntry V) → List Char → CacheEntry V →
    List (List Char × CacheEntry V)
  | [], k, e => [(k, e)]
  | (k0, e0) :: rest, k, e =>
      if k0 = k then (k0, e) :: rest else (k0, e0) :: mapSet rest k e

def mapDelete {V : Type} (m : List (List Char × CacheEntry V))
    (k : List Char) : List (List Char × CacheEntry V) :=
  m.filter (fun p => !(p.1 = k))

def keysOf {V : Type} (m : List (List Char × CacheEntry V)) :
    List (List Char) :=
  m.map Prod.fst

/- Attempt replacing a whitespace run by an underscore. -/
def attWsU (s : List Char) : Option (List Char × Nat) :=
  match s with
  | c :: rest =>
      if isJsSpace c then some (['_'], countWhile isJsSpace rest) else none
  | [] => none

/- PerformanceCache.createCacheKey: lower case, whitespace runs to
underscores. -/
def createCacheKey (key : List Char) : List Char :=
  scanRepl attWsU (key.map jsLower)

/- PerformanceCache.set: when the map holds at least the maximum of 100
entries the first key is evicted (unless it is empty, which is falsy in
the source guard), then the canonicalised key is written. -/
def cacheSet {V : Type} (now : Nat) (m : List (List Char × CacheEntry V))
    (key : List Char) (data : V) : List (List Char × CacheEntry V) :=
  let m1 := if 100 ≤ m.length then
      match m.head? with
      | some (k0, _) => if k0 = [] then m else mapDelete m k0
      | none => m
    else m
  let ck := createCacheKey key
  mapSet m1 ck ⟨data, now, ck⟩

/- A concrete full cache: one hundred entries with distinct two-digit
keys, inserted in order. -/
def keyOf (i : Nat) : List Char :=
  [Char.ofNat (48 + i / 10), Char.ofNat (48 + i % 10)]

def cacheRest : List (List Char × CacheEntry Nat) :=
  (List.range 99).map (fun i => (keyOf (i + 1), ⟨0, 0, keyOf (i + 1)⟩))

def cacheFull : List (List Char × CacheEntry Nat) :=
  (keyOf 0, ⟨0, 0, keyOf 0⟩) :: cacheRest

/-! # Metrics and AnimePageExtractor.calculateAdvancedMatchScore

The cache metrics are threaded explicitly.  FuzzyStringMatcher.match never
touches them in the source, so its state-passing embedding returns them
unchanged; the only mutation is the incrementFuzzyCount call at the top of
calculateAdvancedMatchScore. -/
structure PerformanceMetrics where
  searchTime : Nat
  parseTime : Nat
  cacheHits : Nat
  cacheMisses : Nat
  fuzzyMatchCount : Nat

def initialMetrics : PerformanceMetrics := ⟨0, 0, 0, 0, 0⟩

def incrementFuzzyCount (m : PerformanceMetrics) : PerformanceMetrics :=
  { m with fuzzyMatchCount := m.fuzzyMatchCount + 1 }

def matchWithMetrics (m : PerformanceMetrics) (query target : List Char)
    (cfg : FuzzyMatchConfig) : ℚ × PerformanceMetrics :=
  (matchScore query target cfg, m)

inductive MatchStrategy where
  | exact
  | fuzzy
  | normalized
  | phonetic

structure ScoreMatch where
  url : List Char
  title : List Char
  score : ℚ
  strategy : MatchStrategy
  normalizedTitle : Option (List Char)

/- The URL slug: the last path segment, allowing one trailing slash, with
dashes and underscores turned into spaces. -/
def slugAux : List Char → List Char
  | [] => []
  | c :: rest =>
      if c = '/' then
        let seg := rest.takeWhile (fun c2 => !(c2 = '/'))
        let rem := rest.dropWhile (fun c2 => !(c2 = '/'))
        if seg ≠ [] ∧ (rem = [] ∨ rem = ['/']) then seg else slugAux rest
      else slugAux rest

def extractSlugFromURL (url : List Char) : List Char :=
  jsTrim ((slugAux url).map (fun c => if c = '-' || c = '_' then ' ' else c))

/- String.prototype.split on whitespace runs, keeping the empty boundary
pieces the JavaScript split produces. -/
mutual
def splitWord (cur : List Char) : List Char → List (List Char)
  | [] => [cur.reverse]
  | c :: rest =>
      if isJsSpace c then cur.reverse :: splitRun rest
      else splitWord (c :: cur) rest
def splitRun : List Char → List (List Char)
  | [] => [[]]
  | c :: rest => if isJsSpace c then splitRun rest else splitWord [c] rest
end

def jsSplitWs (s : List Char) : List (List Char) := splitWord [] s

/- AnimePageExtractor.calculateCompoundWordScore. -/
def calculateCompoundWordScore (query title : List Char) : ℚ :=
  let queryWords := jsSplitWs (query.map jsLower)
  let titleLower := title.map jsLower
  let joinedQuery := queryWords.foldl (· ++ ·) []
  if containsSub titleLower joinedQuery then 85
  else
    let expandedTitle :=
      scanRepl (attLit (s2l "yuusha") (s2l "yuu sha"))
        (scanRepl (attLit (s2l "kenshi") (s2l "ken shi"))
          (scanRepl (attLit (s2l "seireitsukai") (s2l "seirei tsukai"))
            (scanRepl (attLit (s2l "mahoutsukai") (s2l "mahou tsukai"))
              titleLower)))
    if containsSub expandedTitle (query.map jsLower) then 80
    else
      let hits := (queryWords.filter (fun w =>
        containsSub titleLower w && decide (2 < w.length))).length
      if 0 < hits then min 70 ((hits : ℚ) * 25) else 0

/- The final fuzzy tier of calculateAdvancedMatchScore. -/
def fuzzyLast (m : PerformanceMetrics) (query title url : List Char) :
    ScoreMatch × PerformanceMetrics :=
  let normalizedQuery := normalizeStr query
  let normalizedTitle := normalizeStr title
  let p := matchWithMetrics m normalizedQuery normalizedTitle
    FUZZY_MATCH_CONFIG
  let finalS := if isFuzzyScore p.1 then p.1 else 0
  (⟨url, title, finalS, MatchStrategy.fuzzy,
    if normalizedTitle ≠ [] then some normalizedTitle else none⟩, p.2)

/- AnimePageExtractor.calculateAdvancedMatchScore: one metrics increment on
entry, then the short-circuiting ladder (exact equality 100, substring 90,
compound words, URL slug via the matcher, full fuzzy matching). -/
def calculateAdvancedMatchScore (m : PerformanceMetrics)
    (query title url : List Char) : ScoreMatch × PerformanceMetrics :=
  let m1 := incrementFuzzyCount m
  let queryLower := query.map jsLower
  let titleLower := title.map jsLower
  if queryLower = titleLower then
    (⟨url, title, 100, MatchStrategy.exact, some titleLower⟩, m1)
  else if containsSub titleLower queryLower then
    (⟨url, title, 90, MatchStrategy.exact, some titleLower⟩, m1)
  else
    let compoundScore := calculateCompoundWordScore query title
    if 80 ≤ compoundScore then
      (⟨url, title, compoundScore, MatchStrategy.phonetic,
        some titleLower⟩, m1)
    else
      let urlSlug := extractSlugFromURL url
      if 3 < urlSlug.length then
        let p := matchWithMetrics m1 query urlSlug FUZZY_MATCH_CONFIG
        if 75 ≤ p.1 then
          (⟨url, title, p.1, MatchStrategy.normalized, some titleLower⟩,
            p.2)
        else fuzzyLast p.2 query title url
      else fuzzyLast m1 query title url

theorem lev_nil (b : List Char) : lev [] b = b.length := rfl

theorem lev_nil_right (a : List Char) : lev a [] = a.length := by
  induction a with
  | nil => rfl
  | cons x xs ih =>
      show lev xs [] + 1 = xs.length + 1
      rw [ih]

theorem lev_cons_nil (x : Char) (xs : List Char) :
    lev (x :: xs) [] = xs.length + 1 := by
  rw [lev_nil_right]; rfl

theorem lev_cons_cons (x y : Char) (xs ys : List Char) :
    lev (x :: xs) (y :: ys) =
      if x = y then lev xs ys
      else 1 + min (lev xs ys) (min (lev (x :: xs) ys) (lev xs (y :: ys))) := rfl

theorem lev_self (a : List Char) : lev a a = 0 := by
  induction a with
  | nil => rfl
  | cons x xs ih => rw [lev_cons_cons, if_pos rfl, ih]

/- Joint bound: adding a head character on either side changes the distance
by at most one.  Proved by strong induction on the total length. -/
theorem lev_head_bounds :
    ∀ (n : Nat) (a b : List Char), a.length + b.length ≤ n →
      (∀ x, lev (x :: a) b ≤ 1 + lev a b) ∧
      (∀ y, lev a b ≤ 1 + lev a (y :: b)) := by
  intro n
  induction n with
  | zero =>
      intro a b h
      have ha : a = [] := List.length_eq_zero.mp (by omega)
      have hb : b = [] := List.length_eq_zero.mp (by omega)
      subst ha; subst hb
      constructor
      · intro x; rw [lev_cons_nil, lev_nil]; omega
      · intro y; rw [lev_nil, lev_nil]; simp
  | succ n ih =>
      intro a b h
      constructor
      · intro x
        cases b with
        | nil => rw [lev_cons_nil, lev_nil_right]; omega
        | cons y b2 =>
            rw [lev_cons_cons]
            by_cases hxy : x = y
            · rw [if_pos hxy]
              exact (ih a b2 (by simp at h; omega)).2 y
            · rw [if_neg hxy]
              have h1 := Nat.min_le_right (lev (x :: a) b2) (lev a (y :: b2))
              have h2 := Nat.min_le_right (lev a b2)
                (min (lev (x :: a) b2) (lev a (y :: b2)))
              omega
      · intro y
        cases a with
        | nil => rw [lev_nil, lev_nil]; simp only [List.length_cons]; omega
        | cons x a2 =>
            conv_rhs => rw [lev_cons_cons]
            by_cases hxy : x = y
            · rw [if_pos hxy]
              exact (ih a2 b (by simp at h; omega)).1 x
            · rw [if_neg hxy]
              have h1 := (ih a2 b (by simp at h; omega)).1 x
              have h2 := (ih a2 b (by simp at h; omega)).2 y
              rcases min_cases (lev (x :: a2) b) (lev a2 (y :: b)) with
                ⟨e, le⟩ | ⟨e, le⟩ <;>
              rcases min_cases (lev a2 b)
                  (min (lev (x :: a2) b) (lev a2 (y :: b))) with
                ⟨e2, le2⟩ | ⟨e2, le2⟩ <;>
              rw [e2] <;> omega

theorem lev_cons_le (x : Char) (a b : List Char) :
    lev (x :: a) b ≤ 1 + lev a b :=
  (lev_head_bounds (a.length + b.length) a b le_rfl).1 x

theorem lev_le_cons_right (y : Char) (a b : List Char) :
    lev a b ≤ 1 + lev a (y :: b) :=
  (lev_head_bounds (a.length + b.length) a b le_rfl).2 y

theorem lev_comm : ∀ (n : Nat) (a b : List Char), a.length + b.length ≤ n →
    lev a b = lev b a := by
  intro n
  induction n with
  | zero =>
      intro a b h
      have ha : a = [] := List.length_eq_zero.mp (by omega)
      have hb : b = [] := List.length_eq_zero.mp (by omega)
      subst ha; subst hb; rfl
  | succ n ih =>
      intro a b h
      cases a with
      | nil =>
          cases b with
          | nil => rfl
          | cons y b2 => rw [lev_nil, lev_cons_nil]; rfl
      | cons x a2 =>
          cases b with
          | nil => rw [lev_nil_right, lev_nil]
          | cons y b2 =>
              rw [lev_cons_cons, lev_cons_cons]
              have e1 : lev a2 b2 = lev b2 a2 :=
                ih a2 b2 (by simp at h; omega)
              have e2 : lev (x :: a2) b2 = lev b2 (x :: a2) :=
                ih (x :: a2) b2 (by simp at h ⊢; omega)
              have e3 : lev a2 (y :: b2) = lev (y :: b2) a2 :=
                ih a2 (y :: b2) (by simp at h ⊢; omega)
              by_cases hxy : x = y
              · rw [if_pos hxy, if_pos hxy.symm, e1]
              · rw [if_neg hxy, if_neg (fun hc => hxy hc.symm), e1, e2, e3]
                rw [Nat.min_comm (lev b2 (x :: a2)) (lev (y :: b2) a2)]

theorem lev_symm (a b : List Char) : lev a b = lev b a :=
  lev_comm (a.length + b.length) a b le_rfl

theorem lev_cons_right_le (y : Char) (a b : List Char) :
    lev a (y :: b) ≤ 1 + lev a b := by
  rw [lev_symm a (y :: b), lev_symm a b]
  exact lev_cons_le y b a

theorem lev_le_cons_left (x : Char) (a b : List Char) :
    lev a b ≤ 1 + lev (x :: a) b := by
  rw [lev_symm a b, lev_symm (x :: a) b]
  exact lev_le_cons_right x b a

/- Substituting the head character changes the distance by at most one. -/
theorem lev_sub_head (x y : Char) (v b : List Char) :
    lev (x :: v) b ≤ 1 + lev (y :: v) b := by
  cases b with
  | nil => rw [lev_cons_nil, lev_cons_nil]; omega
  | cons z b2 =>
      rw [lev_cons_cons, lev_cons_cons]
      by_cases hx : x = z <;> by_cases hy : y = z
      · rw [if_pos hx, if_pos hy]; omega
      · rw [if_pos hx, if_neg hy]
        have h1 := lev_le_cons_left y v b2
        have h2 := lev_le_cons_right z v b2
        rcases min_cases (lev (y :: v) b2) (lev v (z :: b2)) with
          ⟨e, le⟩ | ⟨e, le⟩ <;>
        rcases min_cases (lev v b2)
            (min (lev (y :: v) b2) (lev v (z :: b2))) with
          ⟨e2, le2⟩ | ⟨e2, le2⟩ <;>
        rw [e2] <;> omega
      · rw [if_neg hx, if_pos hy]
        have h1 := Nat.min_le_left (lev v b2)
          (min (lev (x :: v) b2) (lev v (z :: b2)))
        omega
      · rw [if_neg hx, if_neg hy]
        have h1 := Nat.min_le_left (lev v b2)
          (min (lev (x :: v) b2) (lev v (z :: b2)))
        have h2 := lev_le_cons_left y v b2
        have h3 := lev_le_cons_right z v b2
        rcases min_cases (lev (y :: v) b2) (lev v (z :: b2)) with
          ⟨e, le⟩ | ⟨e, le⟩ <;>
        rcases min_cases (lev v b2)
            (min (lev (y :: v) b2) (lev v (z :: b2))) with
          ⟨e2, le2⟩ | ⟨e2, le2⟩ <;>
        rw [e2] <;> omega

/- Transfer of a pointwise distance bound through a common head character. -/
theorem lev_transfer_cons {r r2 : List Char} (k : Nat)
    (h : ∀ b, lev r b ≤ k + lev r2 b) (z : Char) :
    ∀ b, lev (z :: r) b ≤ k + lev (z :: r2) b := by
  intro b
  induction b with
  | nil =>
      have h0 := h []
      rw [lev_nil_right, lev_nil_right] at h0
      rw [lev_cons_nil, lev_cons_nil]
      omega
  | cons y b2 ih =>
      rw [lev_cons_cons, lev_cons_cons]
      by_cases hzy : z = y
      · rw [if_pos hzy, if_pos hzy]; exact h b2
      · rw [if_neg hzy, if_neg hzy]
        have c1 := h b2
        have c3 := h (y :: b2)
        have l1 := Nat.min_le_left (lev r b2)
          (min (lev (z :: r) b2) (lev r (y :: b2)))
        have l2 : min (lev r b2) (min (lev (z :: r) b2) (lev r (y :: b2))) ≤
            lev (z :: r) b2 :=
          le_trans (Nat.min_le_right _ _) (Nat.min_le_left _ _)
        have l3 : min (lev r b2) (min (lev (z :: r) b2) (lev r (y :: b2))) ≤
            lev r (y :: b2) :=
          le_trans (Nat.min_le_right _ _) (Nat.min_le_right _ _)
        rcases min_cases (lev (z :: r2) b2) (lev r2 (y :: b2)) with
          ⟨e, le⟩ | ⟨e, le⟩ <;>
        rcases min_cases (lev r2 b2)
            (min (lev (z :: r2) b2) (lev r2 (y :: b2))) with
          ⟨e2, le2⟩ | ⟨e2, le2⟩ <;>
        rw [e2] <;> omega

theorem lev_transfer (u : List Char) {r r2 : List Char} (k : Nat)
    (h : ∀ b, lev r b ≤ k + lev r2 b) :
    ∀ b, lev (u ++ r) b ≤ k + lev (u ++ r2) b := by
  induction u with
  | nil => exact h
  | cons z u2 ih => exact fun b => lev_transfer_cons k ih z b

theorem estep_lev_le {a a1 : List Char} (h : EStep a a1) (b : List Char) :
    lev a b ≤ 1 + lev a1 b := by
  cases h with
  | ins u v x => exact lev_transfer u 1 (fun b => lev_le_cons_left x v b) b
  | del u v x => exact lev_transfer u 1 (fun b => lev_cons_le x v b) b
  | sub u v x y => exact lev_transfer u 1 (fun b => lev_sub_head x y v b) b

theorem chain_sound {n : Nat} {a b : List Char} (h : EChain n a b) :
    lev a b ≤ n := by
  induction h with
  | refl a => rw [lev_self]
  | @step a a1 b n s c ih =>
      have h2 := estep_lev_le s b
      omega

theorem chain_append :
    ∀ {n : Nat} {a b : List Char}, EChain n a b →
      ∀ {m : Nat} {c : List Char}, EChain m b c → EChain (n + m) a c := by
  intro n a b h1
  induction h1 with
  | refl a => intro m c h2; simpa using h2
  | @step a a1 b n s c2 ih =>
      intro m c h2
      have e : n + 1 + m = n + m + 1 := by omega
      rw [e]
      exact EChain.step s (ih h2)

theorem estep_cons (z : Char) {a b : List Char} (h : EStep a b) :
    EStep (z :: a) (z :: b) := by
  cases h with
  | ins u v x =>
      have h2 := EStep.ins (z :: u) v x
      simpa using h2
  | del u v x =>
      have h2 := EStep.del (z :: u) v x
      simpa using h2
  | sub u v x y =>
      have h2 := EStep.sub (z :: u) v x y
      simpa using h2

theorem chain_cons (z : Char) {n : Nat} {a b : List Char}
    (h : EChain n a b) : EChain n (z :: a) (z :: b) := by
  induction h with
  | refl a => exact EChain.refl _
  | step s c ih => exact EChain.step (estep_cons z s) ih

theorem chain_nil_left : ∀ b : List Char, EChain b.length [] b := by
  intro b
  induction b with
  | nil => exact EChain.refl _
  | cons y b2 ih =>
      have s : EStep ([] : List Char) [y] := by
        have h2 := EStep.ins ([] : List Char) [] y
        simpa using h2
      exact EChain.step s (chain_cons y ih)

theorem chain_nil_right : ∀ a : List Char, EChain a.length a [] := by
  intro a
  induction a with
  | nil => exact EChain.refl _
  | cons x a2 ih =>
      have s : EStep (x :: a2) a2 := by
        have h2 := EStep.del ([] : List Char) a2 x
        simpa using h2
      exact EChain.step s ih

theorem chain_complete :
    ∀ (n : Nat) (a b : List Char), a.length + b.length ≤ n →
      EChain (lev a b) a b := by
  intro n
  induction n with
  | zero =>
      intro a b h
      have ha : a = [] := List.length_eq_zero.mp (by omega)
      have hb : b = [] := List.length_eq_zero.mp (by omega)
      subst ha; subst hb
      exact EChain.refl _
  | succ n ih =>
      intro a b h
      cases a with
      | nil => rw [lev_nil]; exact chain_nil_left b
      | cons x a2 =>
          cases b with
          | nil => rw [lev_cons_nil]; exact chain_nil_right (x :: a2)
          | cons y b2 =>
              rw [lev_cons_cons]
              by_cases hxy : x = y
              · rw [if_pos hxy]
                subst hxy
                exact chain_cons x (ih a2 b2 (by simp at h; omega))
              · rw [if_neg hxy]
                have hsub : EStep (x :: a2) (y :: a2) := by
                  have h2 := EStep.sub ([] : List Char) a2 x y
                  simpa using h2
                have hdel : EStep (x :: a2) a2 := by
                  have h2 := EStep.del ([] : List Char) a2 x
                  simpa using h2
                have hins : EChain 1 b2 (y :: b2) := by
                  have s : EStep b2 (y :: b2) := by
                    have h2 := EStep.ins ([] : List Char) b2 y
                    simpa using h2
                  exact EChain.step s (EChain.refl _)
                rcases min_cases (lev (x :: a2) b2) (lev a2 (y :: b2)) with
                  ⟨e, le⟩ | ⟨e, le⟩
                · rcases min_cases (lev a2 b2)
                      (min (lev (x :: a2) b2) (lev a2 (y :: b2))) with
                    ⟨e2, le2⟩ | ⟨e2, le2⟩
                  · rw [e2, Nat.add_comm]
                    exact EChain.step hsub
                      (chain_cons y (ih a2 b2 (by simp at h; omega)))
                  · rw [e2, e, Nat.add_comm]
                    exact chain_append
                      (ih (x :: a2) b2 (by simp at h ⊢; omega)) hins
                · rcases min_cases (lev a2 b2)
                      (min (lev (x :: a2) b2) (lev a2 (y :: b2))) with
                    ⟨e2, le2⟩ | ⟨e2, le2⟩
                  · rw [e2, Nat.add_comm]
                    exact EChain.step hsub
                      (chain_cons y (ih a2 b2 (by simp at h; omega)))
                  · rw [e2, e, Nat.add_comm]
                    exact EChain.step hdel
                      (ih a2 (y :: b2) (by simp at h ⊢; omega))

theorem lev_triangle (a b c : List Char) :
    lev a c ≤ lev a b + lev b c :=
  chain_sound (chain_append
    (chain_complete (a.length + b.length) a b le_rfl)
    (chain_complete (b.length + c.length) b c le_rfl))

example : normalizeStr (s2l "ouu") = s2l "ou" := by decide

example : normalizeStr (s2l "ou") = s2l "o" := by decide

example : normalizeStr (s2l "Season 2") = s2l "S2" := by decide

example : normalizeStr (s2l "S2") = s2l "s2" := by decide

example : normalizeStr (s2l "Mahou  Tsukai no Yome") = s2l "mahotsukai no yome" := by
  decide

example : clean (s2l "[Group] Show (1080p)!") = s2l "Group Show 1080p" := by
  decide

theorem scanReplF_id (att : List Char → Option (List Char × Nat)) :
    ∀ (fuel : Nat) (t : List Char),
      (∀ l, l <:+ t → l ≠ [] → att l = none) →
      scanReplF att fuel t = t := by
  intro fuel
  induction fuel with
  | zero => intro t h; cases t <;> rfl
  | succ f ih =>
      intro t h
      cases t with
      | nil => rfl
      | cons c rest =>
          have hc := h (c :: rest) (List.suffix_refl _) (by simp)
          show (match att (c :: rest) with
            | some (rep, n) => rep ++ scanReplF att f (rest.drop n)
            | none => c :: scanReplF att f rest) = c :: rest
          rw [hc]
          rw [ih rest (fun l hl hne =>
            h l (hl.trans (List.suffix_cons c rest)) hne)]

theorem scanRepl_id (att : List Char → Option (List Char × Nat))
    (t : List Char) (h : ∀ l, l <:+ t → l ≠ [] → att l = none) :
    scanRepl att t = t :=
  scanReplF_id att t.length t h

theorem no_match_of_not_contains {t pat : List Char}
    (h : containsSub t pat = false) :
    ∀ l, l <:+ t → startsWithL pat l = false := by
  induction t with
  | nil =>
      intro l hl
      have : l = [] := List.suffix_nil.mp hl
      subst this
      exact h
  | cons c rest ih =>
      intro l hl
      have h2 : startsWithL pat (c :: rest) = false ∧
          containsSub rest pat = false := by
        have := h
        simp only [containsSub, Bool.or_eq_false_iff] at this
        exact this
      rcases List.suffix_cons_iff.mp hl with he | hs
      · subst he; exact h2.1
      · exact ih h2.2 l hs

theorem lower_fixed_of_suffix {t l : List Char} (ht : t.map jsLower = t)
    (hl : l <:+ t) : l.map jsLower = l := by
  obtain ⟨u, rfl⟩ := hl
  rw [List.map_append] at ht
  exact (List.append_inj ht (by simp)).2

theorem startsWithCI_eq {pat l : List Char} (hl : l.map jsLower = l) :
    startsWithCI pat l = startsWithL pat l := by
  induction pat generalizing l with
  | nil => rfl
  | cons p ps ih =>
      cases l with
      | nil => rfl
      | cons c cs =>
          rw [List.map_cons] at hl
          injection hl with h1 h2
          show (decide (p = jsLower c) && startsWithCI ps cs) =
            (decide (p = c) && startsWithL ps cs)
          rw [h1, ih h2]

theorem no_CI_match {t lit : List Char} (hlow : t.map jsLower = t)
    (h : containsSub t lit = false) :
    ∀ l, l <:+ t → startsWithCI lit l = false := by
  intro l hl
  rw [startsWithCI_eq (lower_fixed_of_suffix hlow hl)]
  exact no_match_of_not_contains h l hl

theorem replaceChar_id {k v : Char} {t : List Char}
    (h : ∀ c ∈ t, c ≠ k) : replaceChar k v t = t := by
  induction t with
  | nil => rfl
  | cons c rest ih =>
      show (if c = k then v else c) :: replaceChar k v rest = c :: rest
      rw [if_neg (h c (by simp)), ih (fun c2 hc2 => h c2 (by simp [hc2]))]

theorem foldl_norms_id :
    ∀ (ps : List (Char × Char)) (t : List Char),
      (∀ p ∈ ps, ∀ c ∈ t, c ≠ p.1) →
      ps.foldl (fun acc p => replaceChar p.1 p.2 acc) t = t := by
  intro ps
  induction ps with
  | nil => intro t _; rfl
  | cons p ps ih =>
      intro t h
      show ps.foldl _ (replaceChar p.1 p.2 t) = t
      rw [replaceChar_id (h p (by simp))]
      exact ih t (fun q hq => h q (by simp [hq]))

theorem applyCharNorms_id {t : List Char}
    (h : ∀ p ∈ charNorms, ∀ c ∈ t, c ≠ p.1) : applyCharNorms t = t :=
  foldl_norms_id charNorms t h

theorem wsCanon_tail {c : Char} {rest : List Char}
    (h : wsCanon (c :: rest) = true) : wsCanon rest = true := by
  cases rest with
  | nil => rfl
  | cons c2 r =>
      simp only [wsCanon, Bool.and_eq_true] at h
      exact h.2

theorem wsCanon_head {c : Char} {rest : List Char}
    (h : wsCanon (c :: rest) = true) (hs : isJsSpace c = true) : c = ' ' := by
  cases rest with
  | nil =>
      simp only [wsCanon, Bool.or_eq_true, Bool.not_eq_true'] at h
      rcases h with h | h
      · rw [hs] at h; cases h
      · exact of_decide_eq_true h
  | cons c2 r =>
      simp only [wsCanon, Bool.and_eq_true, Bool.or_eq_true,
        Bool.not_eq_true'] at h
      rcases h.1.1 with h2 | h2
      · rw [hs] at h2; cases h2
      · exact of_decide_eq_true h2

theorem wsCanon_run {rest : List Char}
    (h : wsCanon (' ' :: rest) = true) :
    countWhile isJsSpace rest = 0 := by
  cases rest with
  | nil => rfl
  | cons c2 r =>
      have hne : c2 ≠ ' ' := by
        simp only [wsCanon, Bool.and_eq_true, Bool.not_eq_true',
          Bool.and_eq_false_iff] at h
        rcases h.1.2 with h2 | h2
        · simp at h2
        · exact of_decide_eq_false h2
      have hns : isJsSpace c2 = false := by
        by_contra hc
        have hb : isJsSpace c2 = true := by
          cases hx : isJsSpace c2
          · exact absurd hx hc
          · rfl
        exact hne (wsCanon_head (wsCanon_tail h) hb)
      simp [countWhile, List.takeWhile, hns]

theorem collapseWsF_id :
    ∀ (fuel : Nat) (t : List Char), wsCanon t = true →
      scanReplF attWs fuel t = t := by
  intro fuel
  induction fuel with
  | zero => intro t h; cases t <;> rfl
  | succ f ih =>
      intro t h
      cases t with
      | nil => rfl
      | cons c rest =>
          show (match attWs (c :: rest) with
            | some (rep, n) => rep ++ scanReplF attWs f (rest.drop n)
            | none => c :: scanReplF attWs f rest) = c :: rest
          by_cases hc : isJsSpace c = true
          · have hce : c = ' ' := wsCanon_head h hc
            subst hce
            have h0 : countWhile isJsSpace rest = 0 := wsCanon_run h
            simp only [attWs, hc, if_pos, h0]
            rw [List.drop_zero, ih rest (wsCanon_tail h)]
            rfl
          · have hcf : isJsSpace c = false := by
              cases hx : isJsSpace c
              · rfl
              · exact absurd hx hc
            simp only [attWs, hcf, Bool.false_eq_true, if_false]
            rw [ih rest (wsCanon_tail h)]

theorem collapseWs_id {t : List Char} (h : wsCanon t = true) :
    collapseWs t = t :=
  collapseWsF_id t.length t h

theorem normalizeStr_fixed {t : List Char} (h : fixedPred t = true) :
    normalizeStr t = t := by
  have hp : (t.map jsLower == t) = true ∧ (jsTrim t == t) = true ∧
      (charNorms.all (fun p => t.all (fun c => c != p.1))) = true ∧
      wsCanon t = true ∧
      (triggers.all (fun pat => !containsSub t pat)) = true := by
    simpa [fixedPred, Bool.and_eq_true, and_assoc] using h
  have h1 : t.map jsLower = t := beq_iff_eq.mp hp.1
  have h2 : jsTrim t = t := beq_iff_eq.mp hp.2.1
  have h3 : ∀ p ∈ charNorms, ∀ c ∈ t, c ≠ p.1 := by
    intro p hP c hc
    have := List.all_eq_true.mp (List.all_eq_true.mp hp.2.2.1 p hP) c hc
    exact bne_iff_ne.mp this
  have h4 : wsCanon t = true := hp.2.2.2.1
  have h5 : ∀ pat ∈ triggers, containsSub t pat = false := by
    intro pat hP
    have := List.all_eq_true.mp hp.2.2.2.2 pat hP
    simpa using this
  have t1 : containsSub t (s2l "mahou") = false := h5 _ (by simp [triggers])
  have t2 : containsSub t (s2l "maho") = false := h5 _ (by simp [triggers])
  have t3 : containsSub t (s2l "seirei") = false := h5 _ (by simp [triggers])
  have t4 : containsSub t (s2l "ken") = false := h5 _ (by simp [triggers])
  have t5 : containsSub t (s2l "yuu") = false := h5 _ (by simp [triggers])
  have t6 : containsSub t (s2l "ou") = false := h5 _ (by simp [triggers])
  have t7 : containsSub t (s2l "uu") = false := h5 _ (by simp [triggers])
  have t8 : containsSub t (s2l "ei") = false := h5 _ (by simp [triggers])
  have t9 : containsSub t (s2l "season") = false := h5 _ (by simp [triggers])
  have t10 : containsSub t (s2l "episod") = false := h5 _ (by simp [triggers])
  have e1 : scanRepl (attCompound (s2l "mahou") (s2l "tsukai")
      (s2l "mahoutsukai")) t = t :=
    scanRepl_id _ t (fun l hl _ => by
      simp [attCompound, no_CI_match h1 t1 l hl])
  have e2 : scanRepl (attCompound (s2l "maho") (s2l "tsukai")
      (s2l "mahotsukai")) t = t :=
    scanRepl_id _ t (fun l hl _ => by
      simp [attCompound, no_CI_match h1 t2 l hl])
  have e3 : scanRepl (attCompound (s2l "seirei") (s2l "tsukai")
      (s2l "seireitsukai")) t = t :=
    scanRepl_id _ t (fun l hl _ => by
      simp [attCompound, no_CI_match h1 t3 l hl])
  have e4 : scanRepl (attCompound (s2l "ken") (s2l "shi")
      (s2l "kenshi")) t = t :=
    scanRepl_id _ t (fun l hl _ => by
      simp [attCompound, no_CI_match h1 t4 l hl])
  have e5 : scanRepl (attCompound (s2l "yuu") (s2l "sha")
      (s2l "yuusha")) t = t :=
    scanRepl_id _ t (fun l hl _ => by
      simp [attCompound, no_CI_match h1 t5 l hl])
  have e6 : scanRepl (attLit (s2l "ou") (s2l "o")) t = t :=
    scanRepl_id _ t (fun l hl _ => by
      simp [attLit, no_match_of_not_contains t6 l hl])
  have e7 : scanRepl (attLit (s2l "uu") (s2l "u")) t = t :=
    scanRepl_id _ t (fun l hl _ => by
      simp [attLit, no_match_of_not_contains t7 l hl])
  have e8 : scanRepl (attLit (s2l "ei") (s2l "e")) t = t :=
    scanRepl_id _ t (fun l hl _ => by
      simp [attLit, no_match_of_not_contains t8 l hl])
  have e9 : scanRepl attSeason t = t :=
    scanRepl_id _ t (fun l hl _ => by
      simp [attSeason, no_CI_match h1 t9 l hl])
  have e10 : scanRepl attEpisode t = t :=
    scanRepl_id _ t (fun l hl _ => by
      simp [attEpisode, no_CI_match h1 t10 l hl])
  show jsTrim (collapseWs (applyVariations (applyCharNorms (jsTrim
    (t.map jsLower))))) = t
  rw [h1, h2, applyCharNorms_id h3]
  show jsTrim (collapseWs (scanRepl attEpisode (scanRepl attSeason
    (scanRepl (attLit (s2l "ei") (s2l "e"))
      (scanRepl (attLit (s2l "uu") (s2l "u"))
        (scanRepl (attLit (s2l "ou") (s2l "o"))
          (scanRepl (attCompound (s2l "yuu") (s2l "sha") (s2l "yuusha"))
            (scanRepl (attCompound (s2l "ken") (s2l "shi") (s2l "kenshi"))
              (scanRepl (attCompound (s2l "seirei") (s2l "tsukai")
                  (s2l "seireitsukai"))
                (scanRepl (attCompound (s2l "maho") (s2l "tsukai")
                    (s2l "mahotsukai"))
                  (scanRepl (attCompound (s2l "mahou") (s2l "tsukai")
                      (s2l "mahoutsukai")) t))))))))))) = t
  rw [e1, e2, e3, e4, e5, e6, e7, e8, e9, e10, collapseWs_id h4, h2]

/-- C1 counterexample: StringNormalizer.normalize is not idempotent.  The
global replacement of ou by o can recreate an ou pair: normalizing ouu
yields ou, and normalizing the result again yields o. -/
theorem normalize_not_idempotent_ouu :
    ¬ normalizeStr (normalizeStr (s2l "ouu")) = normalizeStr (s2l "ouu") := by
  decide

/-- C1 (amended): normalize is deterministic and total but only idempotent
on inputs whose normal form is fully reduced.  Whenever normalize s is
already lower case, trimmed, free of normalisation-table characters, with
canonical single-space whitespace and containing none of the rewrite
triggers (mahou, maho, seirei, ken, yuu, ou, uu, ei, season, episod), a
second application of normalize leaves it unchanged. -/
theorem normalize_idempotent_on_reduced (s : List Char)
    (h : fixedPred (normalizeStr s) = true) :
    normalizeStr (normalizeStr s) = normalizeStr s :=
  normalizeStr_fixed h

/-- C1 witness: a concrete query whose normal form is reduced, on which the
amended idempotence theorem applies. -/
theorem normalize_idempotent_on_reduced_witness :
    fixedPred (normalizeStr (s2l "One Piece")) = true ∧
    normalizeStr (normalizeStr (s2l "One Piece")) =
      normalizeStr (s2l "One Piece") :=
  ⟨by decide, normalize_idempotent_on_reduced (s2l "One Piece") (by decide)⟩

theorem estep_reverse {u v : List Char} (h : EStep u v) :
    EStep u.reverse v.reverse := by
  cases h with
  | ins u v x =>
      have h2 := EStep.ins v.reverse u.reverse x
      simpa [List.reverse_append] using h2
  | del u v x =>
      have h2 := EStep.del v.reverse u.reverse x
      simpa [List.reverse_append] using h2
  | sub u v x y =>
      have h2 := EStep.sub v.reverse u.reverse x y
      simpa [List.reverse_append] using h2

theorem chain_reverse {n : Nat} {a b : List Char} (h : EChain n a b) :
    EChain n a.reverse b.reverse := by
  induction h with
  | refl a => exact EChain.refl _
  | step s c ih => exact EChain.step (estep_reverse s) ih

theorem lev_reverse (a b : List Char) :
    lev a.reverse b.reverse = lev a b := by
  apply le_antisymm
  · exact chain_sound (chain_reverse
      (chain_complete (a.length + b.length) a b le_rfl))
  · have h2 := chain_sound (chain_reverse
      (chain_complete (a.reverse.length + b.reverse.length)
        a.reverse b.reverse le_rfl))
    simpa using h2

/- The recurrence of lev also holds on last characters, which is the
orientation in which the matrix is filled. -/
theorem lev_snoc (x y : Char) (as bs : List Char) :
    lev (as ++ [x]) (bs ++ [y]) =
      if x = y then lev as bs
      else 1 + min (lev as bs)
        (min (lev (as ++ [x]) bs) (lev as (bs ++ [y]))) := by
  have h1 : lev (as ++ [x]) (bs ++ [y]) =
      lev (x :: as.reverse) (y :: bs.reverse) := by
    rw [← lev_reverse (as ++ [x]) (bs ++ [y])]
    simp [List.reverse_append]
  have e1 : lev as.reverse bs.reverse = lev as bs := lev_reverse as bs
  have e2 : lev (x :: as.reverse) bs.reverse = lev (as ++ [x]) bs := by
    rw [← lev_reverse (as ++ [x]) bs]
    simp [List.reverse_append]
  have e3 : lev as.reverse (y :: bs.reverse) = lev as (bs ++ [y]) := by
    rw [← lev_reverse as (bs ++ [y])]
    simp [List.reverse_append]
  rw [h1, lev_cons_cons, e1, e2, e3]

theorem inits_head {α : Type} (l : List α) :
    l.inits = [] :: l.inits.tail := by
  cases l with
  | nil => rfl
  | cons x xs => rw [List.inits_cons]; rfl

theorem map_inits_split {β : Type} (g : List Char → β) (l : List Char) :
    l.inits.map g = g [] :: (l.inits.map g).tail := by
  conv_lhs => rw [inits_head l, List.map_cons]
  conv_rhs => rw [inits_head l, List.map_cons, List.tail_cons]

theorem rowGo_cons (y x : Char) (xs : List Char) (diag : Nat)
    (prest : List Nat) (cur : Nat) :
    rowGo y (x :: xs) (diag :: prest) cur =
      (if y = x then diag
       else 1 + min diag (min cur (prest.headD 0))) ::
      rowGo y xs prest
        (if y = x then diag
         else 1 + min diag (min cur (prest.headD 0))) := by
  cases prest <;> rfl

/- The invariant of one matrix row step: if the previous row holds the
distances between the prefixes of a (extended by pfx) and p, the row
computed by rowGo holds the distances against p extended by y. -/
theorem rowGo_spec (y : Char) (p : List Char) :
    ∀ (asuf pfx : List Char),
      rowGo y asuf (asuf.inits.map (fun t => lev (pfx ++ t) p))
          (lev pfx (p ++ [y])) =
        (asuf.inits.map (fun t => lev (pfx ++ t) (p ++ [y]))).tail := by
  intro asuf
  induction asuf with
  | nil => intro pfx; rfl
  | cons x xs ih =>
      intro pfx
      have hL : (x :: xs).inits.map (fun t => lev (pfx ++ t) p) =
          lev pfx p ::
            List.map (fun t => lev (pfx ++ (x :: t)) p) xs.inits := by
        rw [List.inits_cons, List.map_cons, List.map_map]
        simp [Function.comp]
      have hR : ((x :: xs).inits.map
            (fun t => lev (pfx ++ t) (p ++ [y]))).tail =
          List.map (fun t => lev (pfx ++ (x :: t)) (p ++ [y]))
            xs.inits := by
        rw [List.inits_cons, List.map_cons, List.tail_cons, List.map_map]
        simp [Function.comp]
      rw [hL, hR, rowGo_cons]
      have hhead : (List.map (fun t => lev (pfx ++ (x :: t)) p)
            xs.inits).headD 0 = lev (pfx ++ [x]) p := by
        rw [inits_head xs, List.map_cons]
        rfl
      rw [hhead]
      have hv : (if y = x then lev pfx p
          else 1 + min (lev pfx p)
            (min (lev pfx (p ++ [y])) (lev (pfx ++ [x]) p))) =
          lev (pfx ++ [x]) (p ++ [y]) := by
        rw [lev_snoc x y pfx p]
        by_cases hxy : x = y
        · rw [if_pos hxy, if_pos hxy.symm]
        · rw [if_neg hxy, if_neg (fun hc => hxy hc.symm),
            Nat.min_comm (lev (pfx ++ [x]) p) (lev pfx (p ++ [y]))]
      rw [hv]
      have hcomp : List.map (fun t => lev (pfx ++ (x :: t)) p) xs.inits =
          List.map (fun t => lev ((pfx ++ [x]) ++ t) p) xs.inits := by
        apply List.map_congr_left
        intro t _
        rw [List.append_cons]
      have hcomp2 : List.map (fun t => lev (pfx ++ (x :: t)) (p ++ [y]))
            xs.inits =
          List.map (fun t => lev ((pfx ++ [x]) ++ t) (p ++ [y]))
            xs.inits := by
        apply List.map_congr_left
        intro t _
        rw [List.append_cons]
      rw [hcomp, hcomp2, ih (pfx ++ [x])]
      rw [map_inits_split (fun t => lev ((pfx ++ [x]) ++ t) (p ++ [y])) xs,
        List.tail_cons]
      rw [List.append_nil]

theorem newRow_spec (y : Char) (a p : List Char) :
    newRow y a (rowFor a p) = rowFor a (p ++ [y]) := by
  unfold newRow rowFor
  dsimp only
  have hhead : (a.inits.map (fun t => lev t p)).headD 0 = p.length := by
    rw [inits_head a, List.map_cons]
    rfl
  rw [hhead]
  have hgo := rowGo_spec y p a []
  simp only [List.nil_append] at hgo
  have hfirst : p.length + 1 = lev [] (p ++ [y]) := by
    rw [lev_nil]
    simp
  rw [hfirst, hgo]
  rw [map_inits_split (fun t => lev t (p ++ [y])) a, List.tail_cons]

theorem range_eq_rowFor_nil (a : List Char) :
    List.range (a.length + 1) = rowFor a [] := by
  unfold rowFor
  induction a with
  | nil => rfl
  | cons x xs ih =>
      rw [List.inits_cons, List.map_cons, List.map_map]
      have hmap : List.map
            ((fun t => lev t ([] : List Char)) ∘ (fun t => x :: t))
            xs.inits =
          List.map Nat.succ
            (List.map (fun t => lev t ([] : List Char)) xs.inits) := by
        rw [List.map_map]
        apply List.map_congr_left
        intro t _
        show lev (x :: t) [] = lev t [] + 1
        rw [lev_cons_nil, lev_nil_right]
      rw [hmap, ← ih]
      rw [show (x :: xs).length + 1 = (xs.length + 1) + 1 from rfl,
        List.range_succ_eq_map]
      rfl

theorem foldl_rows (a : List Char) :
    ∀ (bs p : List Char),
      bs.foldl (fun row y => newRow y a row) (rowFor a p) =
        rowFor a (p ++ bs) := by
  intro bs
  induction bs with
  | nil => intro p; simp
  | cons y bs ih =>
      intro p
      rw [List.foldl_cons, newRow_spec, ih]
      congr 1
      simp

theorem inits_getD_length (l : List Char) :
    l.inits.getD l.length [] = l := by
  induction l with
  | nil => rfl
  | cons x xs ih =>
      rw [List.inits_cons]
      show (List.map (fun t => x :: t) xs.inits).getD xs.length [] = x :: xs
      have hlen : xs.length < (List.map (fun t => x :: t) xs.inits).length := by
        simp [List.length_inits]
      have hlen2 : xs.length < xs.inits.length := by
        simp [List.length_inits]
      rw [List.getD_eq_getElem _ _ hlen, List.getElem_map]
      rw [List.getD_eq_getElem _ _ hlen2] at ih
      rw [ih]

/- The tabulated matrix entry is exactly the recursive edit distance. -/
theorem calculate_eq_lev (a b : List Char) : calculate a b = lev a b := by
  unfold calculate calcMatrix
  rw [range_eq_rowFor_nil, foldl_rows a b [], List.nil_append]
  unfold rowFor
  have hlen : a.length < (a.inits.map (fun t => lev t b)).length := by
    simp [List.length_inits]
  have hlen2 : a.length < a.inits.length := by
    simp [List.length_inits]
  rw [List.getD_eq_getElem _ _ hlen, List.getElem_map]
  have hin := inits_getD_length a
  rw [List.getD_eq_getElem _ _ hlen2] at hin
  rw [hin]

/-- C8: LevenshteinCalculator.calculate is a classic unit-cost edit
distance satisfying the metric properties: zero on equal strings,
symmetric, obeying the triangle inequality, and giving 3 on the kitten
sitting example. -/
theorem calculate_metric :
    (∀ a, calculate a a = 0) ∧
    (∀ a b, calculate a b = calculate b a) ∧
    (∀ a b c, calculate a c ≤ calculate a b + calculate b c) ∧
    calculate (s2l "kitten") (s2l "sitting") = 3 :=
  ⟨fun a => by rw [calculate_eq_lev]; exact lev_self a,
   fun a b => by rw [calculate_eq_lev, calculate_eq_lev]; exact lev_symm a b,
   fun a b c => by
     rw [calculate_eq_lev, calculate_eq_lev, calculate_eq_lev]
     exact lev_triangle a b c,
   by decide⟩

theorem finalScore_range (b : ℚ) :
    0 ≤ finalScore b ∧ finalScore b ≤ 100 := by
  unfold finalScore
  cases hf : isFuzzyScore b
  · simp only [Bool.false_eq_true, if_false]
    norm_num
  · simp only [if_true]
    simp only [isFuzzyScore, decide_eq_true_eq] at hf
    exact hf

/-- C5: for every query, target and configuration the fuzzy matcher score
is clamped to the interval from 0 to 100. -/
theorem matchScore_in_range (query target : List Char)
    (cfg : FuzzyMatchConfig) :
    0 ≤ matchScore query target cfg ∧ matchScore query target cfg ≤ 100 :=
  finalScore_range _

theorem containsSub_nil_pat : ∀ t : List Char, containsSub t [] = true := by
  intro t
  cases t with
  | nil => rfl
  | cons c rest => rfl

theorem similarity_bounds (a b : List Char) (d : Nat) :
    0 ≤ calculateSimilarity a b d ∧ calculateSimilarity a b d ≤ 1 := by
  unfold calculateSimilarity
  dsimp only
  split_ifs with h
  · norm_num
  · constructor
    · exact le_max_left 0 _
    · apply max_le (by norm_num)
      have h0 : (0 : ℚ) ≤ max (a.length : ℚ) (b.length : ℚ) :=
        le_trans (Nat.cast_nonneg _) (le_max_left _ _)
      have hpos : (0 : ℚ) < max (a.length : ℚ) (b.length : ℚ) :=
        lt_of_le_of_ne h0 (Ne.symm h)
      rw [div_le_one hpos]
      have hd : (0 : ℚ) ≤ (d : ℚ) := Nat.cast_nonneg _
      linarith

theorem jsRound_bounds {x w : ℚ} (h0 : 0 ≤ x) (hw : x ≤ w) :
    0 ≤ jsRound x ∧ jsRound x ≤ w + 1 / 2 := by
  unfold jsRound
  constructor
  · have : (0 : ℤ) ≤ ⌊x + 1 / 2⌋ := by
      rw [Int.le_floor]
      push_cast
      linarith
    exact_mod_cast this
  · have : ((⌊x + 1 / 2⌋ : ℤ) : ℚ) ≤ x + 1 / 2 := Int.floor_le _
    linarith

theorem fuzzyMatch_default_bounds (q t : List Char) :
    0 ≤ fuzzyMatch q t FUZZY_MATCH_CONFIG ∧
    fuzzyMatch q t FUZZY_MATCH_CONFIG ≤ 80 := by
  unfold fuzzyMatch
  dsimp only
  split_ifs with h1 h2
  · norm_num
  · norm_num
  · have hs := similarity_bounds q t (calculate q t)
    have hx0 : 0 ≤ calculateSimilarity q t (calculate q t) *
        FUZZY_MATCH_CONFIG.wFuzzy := by
      have : (0 : ℚ) ≤ FUZZY_MATCH_CONFIG.wFuzzy := by norm_num [FUZZY_MATCH_CONFIG]
      exact mul_nonneg hs.1 this
    have hxw : calculateSimilarity q t (calculate q t) *
        FUZZY_MATCH_CONFIG.wFuzzy ≤ 80 := by
      have hw : FUZZY_MATCH_CONFIG.wFuzzy = 80 := by norm_num [FUZZY_MATCH_CONFIG]
      rw [hw]
      nlinarith [hs.1, hs.2]
    have hr := jsRound_bounds hx0 hxw
    constructor
    · exact hr.1
    · -- the rounded value is an integer at most 80.5, hence at most 80
      unfold jsRound at hr ⊢
      have : ⌊calculateSimilarity q t (calculate q t) *
          FUZZY_MATCH_CONFIG.wFuzzy + 1 / 2⌋ ≤ 80 := by
        rw [Int.floor_le_iff]
        push_cast
        nlinarith [hs.1, hs.2]
      exact_mod_cast this

theorem normalizedMatch_bounds (q t : List Char) (w : ℚ) (hw : 0 ≤ w) :
    0 ≤ normalizedMatch q t w ∧ normalizedMatch q t w ≤ w := by
  unfold normalizedMatch
  generalize normalizeStr q = qn
  generalize normalizeStr t = tn
  dsimp only
  generalize clean qn = qc
  generalize clean tn = tc
  split_ifs <;> constructor <;> nlinarith

theorem phoneticMatch_bounds (q t : List Char) (w : ℚ) (hw : 0 ≤ w) :
    0 ≤ phoneticMatch q t w ∧ phoneticMatch q t w ≤ w := by
  unfold phoneticMatch
  generalize toPhonetic q = qp
  generalize toPhonetic t = tp
  dsimp only
  split_ifs <;> constructor <;> nlinarith

/- With an empty trimmed query the exact strategy scores the full weight on
an empty trimmed target and eighty percent of it otherwise, because the
empty string is a substring of every string. -/
theorem exactMatch_empty_query {q : List Char} (t : List Char)
    (h : jsTrim (q.map jsLower) = []) :
    exactMatch q t 100 =
      if jsTrim (t.map jsLower) = [] then 100 else 80 := by
  unfold exactMatch
  rw [h]
  by_cases ht : jsTrim (t.map jsLower) = []
  · rw [ht]
    simp
  · rw [if_neg ht, if_neg (fun he => ht he.symm),
      if_pos (containsSub_nil_pat _)]
    norm_num

/-- C10: under the default configuration an empty or whitespace-only query
is never rejected: its trimmed form is the empty string, which is a
substring of every target, so the exact strategy scores at least
80 percent of the exact weight; the result is exactly 100 when the target
also trims to empty and exactly 80 otherwise. -/
theorem matchScore_empty_query (q t : List Char)
    (h : jsTrim (q.map jsLower) = []) :
    80 ≤ matchScore q t FUZZY_MATCH_CONFIG ∧
    (jsTrim (t.map jsLower) = [] →
      matchScore q t FUZZY_MATCH_CONFIG = 100) := by
  have he := exactMatch_empty_query t h
  have hf := fuzzyMatch_default_bounds q t
  have hn := normalizedMatch_bounds q t 70 (by norm_num)
  have hp := phoneticMatch_bounds q t 60 (by norm_num)
  have hkey : matchScore q t FUZZY_MATCH_CONFIG =
      if jsTrim (t.map jsLower) = [] then 100 else 80 := by
    show finalScore (bestLoop
      [exactMatch q t 100, fuzzyMatch q t FUZZY_MATCH_CONFIG,
       normalizedMatch q t 70, phoneticMatch q t 60] 0) =
      if jsTrim (t.map jsLower) = [] then 100 else 80
    rw [he]
    by_cases ht : jsTrim (t.map jsLower) = []
    · rw [if_pos ht]
      simp only [bestLoop]
      norm_num [finalScore, isFuzzyScore]
    · rw [if_neg ht]
      have hf80 : ¬ fuzzyMatch q t FUZZY_MATCH_CONFIG > 80 :=
        not_lt.mpr hf.2
      have hfe : ¬ fuzzyMatch q t FUZZY_MATCH_CONFIG = 100 := by
        intro e
        have h2 := hf.2
        rw [e] at h2
        norm_num at h2
      have hn80 : ¬ normalizedMatch q t 70 > 80 :=
        not_lt.mpr (by linarith [hn.2])
      have hne : ¬ normalizedMatch q t 70 = 100 := by
        intro e
        have h2 := hn.2
        rw [e] at h2
        norm_num at h2
      have hp80 : ¬ phoneticMatch q t 60 > 80 :=
        not_lt.mpr (by linarith [hp.2])
      have hpe : ¬ phoneticMatch q t 60 = 100 := by
        intro e
        have h2 := hp.2
        rw [e] at h2
        norm_num at h2
      simp only [bestLoop]
      norm_num [hf80, hfe, hn80, hne, hp80, hpe, finalScore, isFuzzyScore]
  constructor
  · rw [hkey]
    split_ifs <;> norm_num
  · intro ht
    rw [hkey, if_pos ht]

/-- C10 witness: the empty query against a concrete target scores 80. -/
theorem matchScore_empty_query_witness :
    jsTrim ((s2l "").map jsLower) = [] ∧
    (80 ≤ matchScore (s2l "") (s2l "Naruto") FUZZY_MATCH_CONFIG ∧
     (jsTrim ((s2l "Naruto").map jsLower) = [] →
       matchScore (s2l "") (s2l "Naruto") FUZZY_MATCH_CONFIG = 100)) :=
  ⟨by decide, matchScore_empty_query (s2l "") (s2l "Naruto") (by decide)⟩

example : extractInfoHash
    (s2l "magnet:?xt=urn:btih:0123456789ABCDEF0123456789ABCDEF01234567&dn=x") =
    s2l "0123456789ABCDEF0123456789ABCDEF01234567" := by decide

example : extractInfoHash (s2l "not a magnet") = [] := by decide

example : parseResolution (s2l "[Judas] Show (1080p)") = s2l "1080p" := by decide

example : parseResolution (s2l "[Group] Show 4K") = [] := by decide

example : parseResolution (s2l "Show (2160p)") = [] := by decide

example : isBatchTorrent (s2l "[Group] Show - Batch (1080p)") [] = true := by
  decide

example : isBatchTorrent (s2l "[Group] Show - 05 (1080p)") [] = false := by
  decide

example : isBatchTorrent (s2l "[Group] Show 01-12 (1080p)") [] = true := by
  decide

example : isBatchTorrent (s2l "[Group] Show S01 (1080p)") [] = true := by
  decide

example : isBatchTorrent (s2l "[Group] Show S01E05") [] = false := by decide

example : extractEpisodeNumber (s2l "[Group] Show S01E05 (1080p)") [] = 5 := by
  decide

example : extractEpisodeNumber (s2l "[Group] Show - 07 (1080p)") [] = 7 := by
  decide

example : extractEpisodeNumber (s2l "Show - 1080 x") [] = 1080 := by decide

example : extractEpisodeNumber (s2l "Show episode 3") [] = 3 := by decide

theorem resTry_shape {k : Nat} {s tok : List Char}
    (h : resTry k s = some tok) :
    ∃ ds c, tok = ds ++ [c] ∧ (c = 'p' ∨ c = 'P') := by
  unfold resTry at h
  dsimp only at h
  by_cases h1 : ((s.take k).length = k && (s.take k).all isDigitC) = true
  · rw [if_pos h1] at h
    cases hd : s.drop k with
    | nil => rw [hd] at h; cases h
    | cons c rest =>
        rw [hd] at h
        dsimp only at h
        split_ifs at h with h2
        · injection h with he
          refine ⟨s.take k, c, he.symm, ?_⟩
          simp only [Bool.and_eq_true, Bool.or_eq_true,
            decide_eq_true_eq] at h2
          exact h2.1
  · rw [if_neg h1] at h; cases h

theorem findResolution_shape :
    ∀ (prev : Option Char) (s tok : List Char),
      findResolution prev s = some tok →
      ∃ ds c, tok = ds ++ [c] ∧ (c = 'p' ∨ c = 'P') := by
  intro prev s
  induction s generalizing prev with
  | nil => intro tok h; cases h
  | cons c rest ih =>
      intro tok h
      unfold findResolution at h
      dsimp only at h
      cases hb : (if (match prev with
          | none => true
          | some pc => !isWordChar pc) then resHere (c :: rest) else none) with
      | none => rw [hb] at h; exact ih (some c) tok h
      | some tok2 =>
          rw [hb] at h
          injection h with he
          subst he
          have hr : resHere (c :: rest) = some tok2 := by
            cases hbv : (match prev with
                | none => true
                | some pc => !isWordChar pc) with
            | true => simpa [hbv] using hb
            | false => simp [hbv] at hb
          unfold resHere at hr
          cases h4 : resTry 4 (c :: rest) with
          | some t4 =>
              rw [h4] at hr
              injection hr with he2
              subst he2
              exact resTry_shape h4
          | none => rw [h4] at hr; exact resTry_shape hr

/-- C4 (amended): parseResolution always returns 480p, 720p, 1080p, 1440p
or the empty string; the literal 4K is unreachable because the matched
token always ends in the letter p, and any matched token outside the
enumerated set yields the empty string. -/
theorem parseResolution_enum (name : List Char) :
    (parseResolution name = [] ∨
      parseResolution name ∈
        [s2l "480p", s2l "720p", s2l "1080p", s2l "1440p"]) ∧
    parseResolution name ≠ s2l "4K" := by
  cases hm : findResolution none name with
  | none =>
      have e : parseResolution name = [] := by
        unfold parseResolution; rw [hm]
      rw [e]
      exact ⟨Or.inl rfl, by decide⟩
  | some tok =>
      have e : parseResolution name =
          if validResolutions.contains tok then tok else [] := by
        unfold parseResolution; rw [hm]
      obtain ⟨ds, c, htok, hc⟩ := findResolution_shape none name tok hm
      by_cases hv : validResolutions.contains tok = true
      · rw [e, if_pos hv]
        have hmem : tok ∈ validResolutions := by simpa using hv
        have hnotK : tok ≠ s2l "4K" := by
          intro h4
          have hlast : (ds ++ [c]).getLast? = (s2l "4K").getLast? := by
            rw [← htok, h4]
          rw [List.getLast?_concat] at hlast
          have hck : c = 'K' := by
            have : (s2l "4K").getLast? = some 'K' := by decide
            rw [this] at hlast
            injection hlast
          rcases hc with hcp | hcp <;> rw [hck] at hcp <;> cases hcp
        simp only [validResolutions, List.mem_cons, List.not_mem_nil,
          or_false] at hmem
        rcases hmem with h | h | h | h | h
        · exact ⟨Or.inr (by rw [h]; simp), by rw [h]; decide⟩
        · exact ⟨Or.inr (by rw [h]; simp), by rw [h]; decide⟩
        · exact ⟨Or.inr (by rw [h]; simp), by rw [h]; decide⟩
        · exact ⟨Or.inr (by rw [h]; simp), by rw [h]; decide⟩
        · exact absurd h hnotK
      · rw [e, if_neg hv]
        exact ⟨Or.inl rfl, by decide⟩

/-- C4 counterexample: the claim says a name containing 4K and no
digit-plus-p token returns 4K; the resolution regex only matches digit
tokens ending in p, so such a name yields the empty string instead. -/
theorem parseResolution_fourK_empty :
    parseResolution (s2l "[Group] Show 4K") = [] := by decide

/-- C2 (amended): extractInfoHash returns the empty string on every input
failing the magnet guard, and on a well-formed magnet it returns the
forty-hex-digit capture exactly as it appears, without lower-casing. -/
theorem extractInfoHash_spec :
    (∀ link, isValidMagnetLink link = false → extractInfoHash link = []) ∧
    extractInfoHash (s2l
      "magnet:?xt=urn:btih:0123456789ABCDEF0123456789ABCDEF01234567&dn=x") =
      s2l "0123456789ABCDEF0123456789ABCDEF01234567" ∧
    extractInfoHash (s2l "not a magnet") = [] := by
  refine ⟨?_, by decide, by decide⟩
  intro link h
  unfold extractInfoHash
  rw [h]
  rfl

/-- C2 witness: the malformed input of the claim fails the magnet guard
and is mapped to the empty string by the general part of the theorem. -/
theorem extractInfoHash_spec_witness :
    isValidMagnetLink (s2l "not a magnet") = false ∧
    extractInfoHash (s2l "not a magnet") = [] :=
  ⟨by decide, extractInfoHash_spec.1 (s2l "not a magnet") (by decide)⟩

/-- C2 counterexample: on the magnet link of the claim the hash is
returned in its original upper case, not lower-cased. -/
theorem extractInfoHash_not_lowercased :
    ¬ extractInfoHash (s2l
      "magnet:?xt=urn:btih:0123456789ABCDEF0123456789ABCDEF01234567&dn=x") =
      s2l "0123456789abcdef0123456789abcdef01234567" := by decide

/-- C9: the final single-episode rule of isBatchTorrent is unobservable:
the function agrees everywhere with the variant that drops the rule,
since both the rule and the fall-through default return false. -/
theorem isBatchTorrent_single_rule_dead (name episodeTitle : List Char) :
    isBatchTorrent name episodeTitle =
      isBatchTorrentNoSingleRule name episodeTitle := by
  unfold isBatchTorrent isBatchTorrentNoSingleRule
  dsimp only
  split_ifs <;> rfl

/-- C6 (amended): a batch torrent always forces episode number -1; the
dash and season-episode strategies give 5 and 7 on the claimed examples;
and the isolated-number fallback can never produce 1080 (it rejects the
common resolutions 480, 720 and 1080 and every value of 2000 or more),
although the higher-priority dash, season-episode and English patterns can
still return 1080 when the token appears in one of their contexts. -/
theorem extractEpisodeNumber_spec :
    (∀ name episodeTitle, isBatchTorrent name episodeTitle = true →
      extractEpisodeNumber name episodeTitle = -1) ∧
    extractEpisodeNumber (s2l "[Group] Show S01E05 (1080p)") [] = 5 ∧
    extractEpisodeNumber (s2l "[Group] Show - 07 (1080p)") [] = 7 ∧
    (∀ name, tryExtractFromIsolatedNumbers name ≠ some 1080) := by
  refine ⟨?_, by decide, by decide, ?_⟩
  · intro name episodeTitle h
    unfold extractEpisodeNumber
    rw [h]
    rfl
  · intro name h
    have hp := List.find?_some h
    have : isValidEpisodeForIsolation 1080 = false := by decide
    rw [this] at hp
    cases hp

/-- C6 witness: a concrete batch name on which the batch clause of the
theorem forces the minus-one result. -/
theorem extractEpisodeNumber_spec_witness :
    isBatchTorrent (s2l "[Group] Show - Batch (1080p)") [] = true ∧
    extractEpisodeNumber (s2l "[Group] Show - Batch (1080p)") [] = -1 :=
  ⟨by decide, extractEpisodeNumber_spec.1 _ _ (by decide)⟩

/-- C6 counterexample: the name Show - 1080 x contains 1080 as its only
digit token, yet the dash strategy extracts episode number 1080, so the
claim that such a name never yields 1080 fails. -/
theorem extractEpisodeNumber_1080_dash :
    extractEpisodeNumber (s2l "Show - 1080 x") [] = 1080 := by decide

theorem mapDelete_id {V : Type} (m : List (List Char × CacheEntry V))
    (k : List Char) (h : k ∉ keysOf m) : mapDelete m k = m := by
  apply List.filter_eq_self.mpr
  intro p hp
  have : p.1 ≠ k := by
    intro he
    exact h (by rw [← he]; exact List.mem_map_of_mem Prod.fst hp)
  simp [this]

theorem mapSet_keys {V : Type} :
    ∀ (m : List (List Char × CacheEntry V)) (k : List Char)
      (e : CacheEntry V),
      keysOf (mapSet m k e) =
        if k ∈ keysOf m then keysOf m else keysOf m ++ [k] := by
  intro m
  induction m with
  | nil => intro k e; simp [mapSet, keysOf]
  | cons p rest ih =>
      intro k e
      cases p with
      | mk k0 e0 =>
          have hstep : mapSet ((k0, e0) :: rest) k e =
              if k0 = k then (k0, e) :: rest
              else (k0, e0) :: mapSet rest k e := rfl
          rw [hstep]
          by_cases hk : k0 = k
          · subst hk
            rw [if_pos rfl]
            have hmem : k0 ∈ keysOf ((k0, e0) :: rest) := by
              show k0 ∈ k0 :: keysOf rest
              exact List.mem_cons_self _ _
            rw [if_pos hmem]
            rfl
          · simp only [if_neg hk]
            have hkk : ¬ k = k0 := fun he => hk he.symm
            have hm : (k ∈ keysOf ((k0, e0) :: rest)) ↔ (k ∈ keysOf rest) := by
              show (k ∈ k0 :: keysOf rest) ↔ (k ∈ keysOf rest)
              rw [List.mem_cons]
              simp [hkk]
            have hc : keysOf ((k0, e0) :: mapSet rest k e) =
                k0 :: keysOf (mapSet rest k e) := rfl
            rw [hc, ih k e]
            by_cases hmem : k ∈ keysOf rest
            · rw [if_pos hmem, if_pos (hm.mpr hmem)]
              rfl
            · rw [if_neg hmem, if_neg (fun hx => hmem (hm.mp hx))]
              rfl

/-- C3 (amended): whenever the map holds at least the maximum of 100
entries and its oldest key is nonempty, set evicts that oldest entry
unconditionally, whether or not the canonicalised key being written is
already present; the keys afterwards are the remaining 99 in order,
followed by the canonicalised key if it was not among them. -/
theorem cacheSet_at_capacity {V : Type} (now : Nat) (k0 : List Char)
    (e0 : CacheEntry V) (m2 : List (List Char × CacheEntry V))
    (k : List Char) (v : V)
    (hlen : 100 ≤ ((k0, e0) :: m2).length)
    (hnd : (keysOf ((k0, e0) :: m2)).Nodup)
    (hk0 : k0 ≠ []) :
    keysOf (cacheSet now ((k0, e0) :: m2) k v) =
      if createCacheKey k ∈ keysOf m2 then keysOf m2
      else keysOf m2 ++ [createCacheKey k] := by
  unfold cacheSet
  dsimp only
  rw [if_pos hlen]
  simp only [List.head?_cons]
  rw [if_neg hk0]
  have hk0nm : k0 ∉ keysOf m2 := by
    have := hnd
    simp only [keysOf, List.map_cons, List.nodup_cons] at this
    exact this.1
  have hdel : mapDelete ((k0, e0) :: m2) k0 = m2 := by
    show List.filter (fun p => !(p.1 = k0)) ((k0, e0) :: m2) = m2
    rw [List.filter_cons]
    simp only [decide_eq_true_eq]
    rw [if_neg (by simp)]
    exact mapDelete_id m2 k0 hk0nm
  rw [hdel, mapSet_keys]

/-- C3 witness: inserting a 101st distinct key into the full cache evicts
exactly the first-inserted key and appends the new canonicalised key. -/
theorem cacheSet_at_capacity_witness :
    keyOf 0 ≠ [] ∧ 100 ≤ cacheFull.length ∧ (keysOf cacheFull).Nodup ∧
    keysOf (cacheSet 7 cacheFull (s2l "new key") 5) =
      keysOf cacheRest ++ [createCacheKey (s2l "new key")] := by
  refine ⟨by decide, by decide, by decide, ?_⟩
  show keysOf (cacheSet 7 ((keyOf 0, ⟨0, 0, keyOf 0⟩) :: cacheRest)
    (s2l "new key") 5) = _
  rw [cacheSet_at_capacity 7 (keyOf 0) ⟨0, 0, keyOf 0⟩ cacheRest
    (s2l "new key") 5 (by decide) (by decide) (by decide)]
  rw [if_neg (by decide)]

/-- C3 counterexample: writing the already-present key 55 into the full
cache still evicts the first-inserted key 00, contradicting the claim
that a set whose canonicalised key is present never evicts another
entry. -/
theorem cacheSet_existing_key_evicts :
    (keysOf cacheFull).contains (keyOf 0) = true ∧
    (keysOf cacheFull).contains (s2l "55") = true ∧
    (keysOf (cacheSet 7 cacheFull (s2l "55") 5)).contains (keyOf 0) =
      false := by
  refine ⟨by decide, by decide, by decide⟩

/-- C7 counterexample: invoking the matcher does not increment the fuzzy
counter; the metrics come back from match unchanged. -/
theorem match_does_not_increment :
    ¬ ((matchWithMetrics initialMetrics (s2l "a") (s2l "b")
        FUZZY_MATCH_CONFIG).2.fuzzyMatchCount =
      initialMetrics.fuzzyMatchCount + 1) := by decide

/-- C7 (amended): the fuzzy counter counts invocations of
calculateAdvancedMatchScore, which increments it by exactly one on entry
regardless of the winning strategy, while FuzzyStringMatcher.match itself
leaves the metrics unchanged (it may be called zero, one or two times per
ladder run). -/
theorem advanced_score_increments_once :
    (∀ (m : PerformanceMetrics) (query title url : List Char),
      (calculateAdvancedMatchScore m query title url).2.fuzzyMatchCount =
        m.fuzzyMatchCount + 1) ∧
    (∀ (m : PerformanceMetrics) (query target : List Char)
      (cfg : FuzzyMatchConfig),
      (matchWithMetrics m query target cfg).2 = m) := by
  constructor
  · intro m query title url
    unfold calculateAdvancedMatchScore fuzzyLast matchWithMetrics
    dsimp only
    split_ifs <;> rfl
  · intro m q t cfg
    rfl
